import Mathlib

/-
Verification of the streaming protocol translator of the Express MCP
playground: the server-side raw-event translator, the SSE frame decoder on
the client, the request validation of the POST endpoint, and the UI
projection of downstream events.
-/

/-- JSON values, the result type of the JavaScript JSON.parse builtin.
A number is kept exactly as mantissa times ten to the power exp10. -/
inductive Json where
  | null : Json
  | bool (b : Bool) : Json
  | num (mant : Int) (exp10 : Int) : Json
  | str (s : String) : Json
  | arr (elems : List Json) : Json
  | obj (fields : List (String × Json)) : Json

/-- JSON whitespace characters (space, tab, line feed, carriage return). -/
def isWsChar (c : Char) : Bool :=
  c == ' ' || c == '\t' || c == '\n' || c == '\r'

/-- Drop leading JSON whitespace. -/
def skipWs : List Char → List Char
  | [] => []
  | c :: cs => if isWsChar c then skipWs cs else c :: cs

/-- Value of a hexadecimal digit, if the character is one. -/
def hexVal (c : Char) : Option Nat :=
  if '0' ≤ c ∧ c ≤ '9' then some (c.toNat - 48)
  else if 'a' ≤ c ∧ c ≤ 'f' then some (c.toNat - 87)
  else if 'A' ≤ c ∧ c ≤ 'F' then some (c.toNat - 55)
  else none

/-- Parse the body of a JSON string (after the opening quote), returning the
decoded characters and the remainder after the closing quote. -/
def parseStrChars : List Char → Option (List Char × List Char)
  | [] => none
  | '"' :: rest => some ([], rest)
  | '\\' :: rest =>
    match rest with
    | '"' :: r => (parseStrChars r).map (fun p => ('"' :: p.1, p.2))
    | '\\' :: r => (parseStrChars r).map (fun p => ('\\' :: p.1, p.2))
    | '/' :: r => (parseStrChars r).map (fun p => ('/' :: p.1, p.2))
    | 'b' :: r => (parseStrChars r).map (fun p => (Char.ofNat 8 :: p.1, p.2))
    | 'f' :: r => (parseStrChars r).map (fun p => (Char.ofNat 12 :: p.1, p.2))
    | 'n' :: r => (parseStrChars r).map (fun p => ('\n' :: p.1, p.2))
    | 'r' :: r => (parseStrChars r).map (fun p => ('\r' :: p.1, p.2))
    | 't' :: r => (parseStrChars r).map (fun p => ('\t' :: p.1, p.2))
    | 'u' :: h1 :: h2 :: h3 :: h4 :: r =>
      match hexVal h1, hexVal h2, hexVal h3, hexVal h4 with
      | some a, some b, some c, some d =>
        (parseStrChars r).map
          (fun p => (Char.ofNat (((a * 16 + b) * 16 + c) * 16 + d) :: p.1, p.2))
      | _, _, _, _ => none
    | _ => none
  | c :: rest =>
    if c.toNat < 32 then none
    else (parseStrChars rest).map (fun p => (c :: p.1, p.2))

/-- Numeric value of a digit string. -/
def digitsVal (ds : List Char) : Nat :=
  ds.foldl (fun a c => a * 10 + (c.toNat - 48)) 0

/-- Parse the optional fractional part of a JSON number. -/
def parseFrac : List Char → Option (List Char × List Char)
  | '.' :: r =>
    match r.span Char.isDigit with
    | ([], _) => none
    | (ds, rest) => some (ds, rest)
  | cs => some ([], cs)

/-- Parse the optional exponent part of a JSON number. -/
def parseExp : List Char → Option (Int × List Char)
  | [] => some (0, [])
  | c :: r =>
    if c = 'e' ∨ c = 'E' then
      let sr : Int × List Char :=
        match r with
        | '+' :: t => (1, t)
        | '-' :: t => (-1, t)
        | _ => (1, r)
      match sr.2.span Char.isDigit with
      | ([], _) => none
      | (ds, rest) => some (sr.1 * (digitsVal ds : Int), rest)
    else some (0, c :: r)

/-- Parse a JSON number (leading zeros forbidden, optional fraction and
exponent), yielding its exact value as mantissa and decimal exponent. -/
def parseNumber (cs : List Char) : Option (Json × List Char) :=
  let nc : Bool × List Char :=
    match cs with
    | '-' :: r => (true, r)
    | _ => (false, cs)
  match nc.2 with
  | [] => none
  | c :: rest0 =>
    if c.isDigit then
      let ip : List Char × List Char :=
        if c = '0' then ([c], rest0)
        else (c :: rest0.takeWhile Char.isDigit, rest0.dropWhile Char.isDigit)
      match parseFrac ip.2 with
      | none => none
      | some (fracDs, rest2) =>
        match parseExp rest2 with
        | none => none
        | some (e, rest3) =>
          let m : Int := (digitsVal (ip.1 ++ fracDs) : Int)
          some (.num (if nc.1 then -m else m) (e - (fracDs.length : Int)), rest3)
    else none

mutual

/-- Parse one JSON value, fuel-bounded recursive descent. -/
def parseVal : Nat → List Char → Option (Json × List Char)
  | 0, _ => none
  | fuel + 1, cs =>
    match skipWs cs with
    | 'n' :: 'u' :: 'l' :: 'l' :: r => some (.null, r)
    | 't' :: 'r' :: 'u' :: 'e' :: r => some (.bool true, r)
    | 'f' :: 'a' :: 'l' :: 's' :: 'e' :: r => some (.bool false, r)
    | '"' :: r => (parseStrChars r).map (fun p => (.str (String.mk p.1), p.2))
    | '{' :: r =>
      match skipWs r with
      | '}' :: r2 => some (.obj [], r2)
      | r2 => (parseMembers fuel r2).map (fun p => (.obj p.1, p.2))
    | '[' :: r =>
      match skipWs r with
      | ']' :: r2 => some (.arr [], r2)
      | r2 => (parseElems fuel r2).map (fun p => (.arr p.1, p.2))
    | cs2 => parseNumber cs2

/-- Parse the members of a JSON object after the opening brace. -/
def parseMembers : Nat → List Char → Option (List (String × Json) × List Char)
  | 0, _ => none
  | fuel + 1, cs =>
    match skipWs cs with
    | '"' :: r =>
      match parseStrChars r with
      | none => none
      | some (key, r2) =>
        match skipWs r2 with
        | ':' :: r3 =>
          match parseVal fuel r3 with
          | none => none
          | some (v, r4) =>
            match skipWs r4 with
            | ',' :: r5 => (parseMembers fuel r5).map (fun p => ((String.mk key, v) :: p.1, p.2))
            | '}' :: r5 => some ([(String.mk key, v)], r5)
            | _ => none
        | _ => none
    | _ => none

/-- Parse the elements of a JSON array after the opening bracket. -/
def parseElems : Nat → List Char → Option (List Json × List Char)
  | 0, _ => none
  | fuel + 1, cs =>
    match parseVal fuel cs with
    | none => none
    | some (v, r) =>
      match skipWs r with
      | ',' :: r2 => (parseElems fuel r2).map (fun p => (v :: p.1, p.2))
      | ']' :: r2 => some ([v], r2)
      | _ => none

end

/-- Model of JSON.parse over a character list: the whole input must be one
JSON value surrounded by whitespace, otherwise the parse fails. -/
def parseJsonChars (cs : List Char) : Option Json :=
  match parseVal (cs.length + 1) cs with
  | some (v, rest) => if skipWs rest = [] then some v else none
  | none => none

/-- Model of JSON.parse over a string. -/
def parseJson (s : String) : Option Json :=
  parseJsonChars s.data

/-
Stream Translator: embedding of the for-await loop of the POST handler in
the API route (the server file): state variables currentToolName,
currentToolInput, currentToolId and the per-event dispatch on event.type.
-/

/-- Raw provider events as inspected by the translator: the loop reads
event.type, and for start/delta events the loosely-typed payload fields. -/
inductive RawEvent where
  | contentBlockStart (blockType : String) (name : Option String) (id : Option String)
  | contentBlockDelta (deltaType : String) (text : Option String) (jsonFrag : Option String)
  | contentBlockStop
  | messageStop
  | otherEvent (eventType : String)

/-- Downstream events, the wire contract emitted as SSE data frames. -/
inductive DownstreamEvent where
  | text (content : String)
  | toolStart (name : String) (id : String)
  | toolComplete (name : String) (id : String) (input : Json)
  | done
  | error (message : String)

/-- Translator state: currentToolName, currentToolInput, currentToolId. -/
structure TState where
  name : String
  input : String
  id : String

/-- The initial translator state: all three variables the empty string. -/
def initTState : TState := ⟨"", "", ""⟩

/-- JavaScript truthiness of an optional string field: present and
non-empty. -/
def optTruthy (o : Option String) : Bool :=
  match o with
  | some s => s ≠ ""
  | none => false

/-- The tool input produced at content_block_stop: JSON.parse of the
accumulated string, and on parse failure the raw-wrapped object when the
string is non-empty, else the empty object. -/
def parseInput (s : String) : Json :=
  match parseJson s with
  | some v => v
  | none => if s = "" then Json.obj [] else Json.obj [("raw", Json.str s)]

/-- One step of the translator loop body: next state and emitted events. -/
def step (st : TState) : RawEvent → TState × List DownstreamEvent
  | .contentBlockStart t name id =>
    if (t = "tool_use" ∨ t = "mcp_tool_use") ∧ optTruthy name then
      (⟨name.getD "", "", id.getD ""⟩,
       [.toolStart (name.getD "") (id.getD "")])
    else (st, [])
  | .contentBlockDelta t txt pj =>
    if t = "text_delta" ∧ optTruthy txt then
      (st, [.text (txt.getD "")])
    else if t = "input_json_delta" ∧ optTruthy pj then
      ({st with input := st.input ++ pj.getD ""}, [])
    else (st, [])
  | .contentBlockStop =>
    if st.name ≠ "" then
      (⟨"", "", ""⟩, [.toolComplete st.name st.id (parseInput st.input)])
    else (st, [])
  | .messageStop => (st, [.done])
  | .otherEvent _ => (st, [])

/-- Run the translator loop over a raw event list from a given state,
returning the final state and the concatenated emissions. -/
def run (st : TState) : List RawEvent → TState × List DownstreamEvent
  | [] => (st, [])
  | e :: es =>
    let so := step st e
    let rest := run so.1 es
    (rest.1, so.2 ++ rest.2)

/-- The downstream sequence the translator emits for a raw event list. -/
def translateRaw (evs : List RawEvent) : List DownstreamEvent :=
  (run initTState evs).2

/-- A run that is interrupted by a stream error after the given events were
delivered: the catch block emits one error frame and closes the stream. -/
def translateWithError (evs : List RawEvent) (msg : String) : List DownstreamEvent :=
  translateRaw evs ++ [.error msg]

/-
Transport decoder: embedding of the client read loop in the page component:
each read chunk is split on newline, and every line starting with the frame
mark has the mark stripped and the remainder JSON-parsed; lines that fail to
parse are silently ignored.
-/

/-- Split a character list on newline characters, keeping empty pieces,
like the JavaScript String.split with a newline separator. -/
def splitNl : List Char → List (List Char)
  | [] => [[]]
  | c :: cs =>
    if c = '\n' then [] :: splitNl cs
    else
      match splitNl cs with
      | [] => [[c]]
      | l :: ls => (c :: l) :: ls

/-- The six characters of the SSE frame mark. -/
def frameMark : List Char := 'd' :: 'a' :: 't' :: 'a' :: ':' :: ' ' :: []

/-- Decode one line: if it starts with the frame mark, strip it and JSON
parse the remainder, dropping the line silently on parse failure. -/
def decodeLine (l : List Char) : List Json :=
  if l.take 6 = frameMark then
    match parseJsonChars (l.drop 6) with
    | some v => [v]
    | none => []
  else []

/-- Decode one read chunk: split on newlines and decode every line. -/
def decodeChunk (cs : List Char) : List Json :=
  (splitNl cs).flatMap decodeLine

/-- Decode a sequence of read chunks, each chunk processed independently as
the client loop does. -/
def decodeChunks (chunks : List (List Char)) : List Json :=
  chunks.flatMap decodeChunk

/-
POST endpoint validation: embedding of the request handling before any
streaming starts (body parse, the messages check, and the outer catch).
-/

/-- A conversation message in the request body. -/
structure ChatMessage where
  role : String
  content : String

/-- The parsed request body fields the endpoint reads. -/
structure ReqBody where
  messages : Option (List ChatMessage)
  mcpUrl : Option String

/-- The response of the endpoint before or instead of streaming: the HTTP
status, the JSON error body when present, whether a streaming response was
returned, and whether an upstream provider connection was opened. -/
structure PostResponse where
  status : Nat
  errorBody : Option String
  streaming : Bool
  upstreamOpened : Bool

/-- The messages check of the endpoint: the field is falsy or empty. -/
def messagesInvalid (b : ReqBody) : Bool :=
  match b.messages with
  | none => true
  | some l => l.isEmpty

/-- Setup phase of the POST handler: a failed body parse hits the outer
catch (status 500); a missing or empty messages field returns 400 before
anything upstream happens; any other setup failure before streaming also
hits the outer catch; otherwise a streaming response is returned and the
upstream request opened. -/
def postSetup (body : Except String ReqBody) (setupFailure : Option String) : PostResponse :=
  match body with
  | .error msg => ⟨500, some msg, false, false⟩
  | .ok b =>
    if messagesInvalid b then ⟨400, some "Messages are required", false, false⟩
    else
      match setupFailure with
      | some msg => ⟨500, some msg, false, false⟩
      | none => ⟨200, none, true, true⟩

/-
UI projection: embedding of the client event dispatch that maintains the
accumulators currentContent and currentToolCalls.
-/

/-- Status of a tool call entry in the client list. -/
inductive CallStatus where
  | running
  | complete
deriving DecidableEq

/-- A tool call entry of the client list. -/
structure ClientToolCall where
  name : String
  id : String
  status : CallStatus
  input : Option Json

/-- The client accumulators for the assistant message being streamed. -/
structure UIState where
  content : String
  toolCalls : List ClientToolCall

/-- One dispatch step of the client loop on a decoded downstream event,
updating the accumulators exactly as the handlers do: text appends content,
tool_start appends a running entry (id defaulted from the list length when
the event id is empty), tool_complete maps the list through the id match
with the name-plus-running fallback, and other events leave them unchanged. -/
def applyDownstream (st : UIState) : DownstreamEvent → UIState
  | .text c => {st with content := st.content ++ c}
  | .toolStart n i =>
    let toolId := if i = "" then "tool-" ++ toString st.toolCalls.length else i
    {st with toolCalls := st.toolCalls ++ [⟨n, toolId, .running, none⟩]}
  | .toolComplete n i inp =>
    {st with toolCalls := st.toolCalls.map (fun tc =>
      if i ≠ "" ∧ tc.id = i then {tc with status := .complete, input := some inp}
      else if i = "" ∧ tc.name = n ∧ tc.status = .running then
        {tc with status := .complete, input := some inp}
      else tc)}
  | .done => st
  | .error _ => st

/- Helper lemmas about list indexing and translator runs. -/

theorem lt_of_getElem?_some {α : Type} {l : List α} {i : Nat} {x : α}
    (h : l[i]? = some x) : i < l.length := by
  by_contra hc
  rw [List.getElem?_eq_none (Nat.le_of_not_lt hc)] at h
  exact Option.noConfusion h

theorem getElem?_append_of_some {α : Type} {l l2 : List α} {i : Nat} {x : α}
    (h : l[i]? = some x) : (l ++ l2)[i]? = some x := by
  have hlt : i < l.length := lt_of_getElem?_some h
  rw [List.getElem?_append]
  simp only [hlt, if_true]
  exact h

theorem getElem?_concat_cases {α : Type} {l : List α} {e x : α} {k : Nat}
    (h : (l ++ [e])[k]? = some x) : l[k]? = some x ∨ (k = l.length ∧ x = e) := by
  rw [List.getElem?_append] at h
  split at h
  · exact Or.inl h
  · rename_i hk
    have hk' : l.length ≤ k := Nat.le_of_not_lt hk
    cases hd : k - l.length with
    | zero =>
      rw [hd] at h
      simp only [List.getElem?_cons_zero, Option.some.injEq] at h
      exact Or.inr ⟨Nat.le_antisymm (Nat.sub_eq_zero_iff_le.mp hd) hk', h.symm⟩
    | succ n =>
      rw [hd] at h
      simp at h

theorem run_append (st : TState) (xs ys : List RawEvent) :
    run st (xs ++ ys) =
      ((run (run st xs).1 ys).1, (run st xs).2 ++ (run (run st xs).1 ys).2) := by
  induction xs generalizing st with
  | nil => simp [run]
  | cons e es ih => simp [run, ih, List.append_assoc]

/-- C1: on the raw sequence tool-use block start for search with id t1,
an input JSON delta carrying the whole argument object, a block stop, a
text delta "Found it", and message stop, the translator emits exactly the
tool start, the tool completion with the parsed input, the text, and done,
in that order and nothing else. -/
theorem claim1_exact_sequence :
    translateRaw
      [.contentBlockStart "tool_use" (some "search") (some "t1"),
       .contentBlockDelta "input_json_delta" none (some "\x7b\"q\":\"x\"\x7d"),
       .contentBlockStop,
       .contentBlockDelta "text_delta" (some "Found it") none,
       .messageStop] =
      [.toolStart "search" "t1",
       .toolComplete "search" "t1" (.obj [("q", .str "x")]),
       .text "Found it",
       .done] := rfl

/-- C5 counterexample: the claim that no downstream event follows a done is
false on the code: the loop keeps processing raw events after message_stop,
so a text delta arriving after message_stop still emits a text event. -/
theorem claim5_counterexample :
    ¬ ∀ (evs : List RawEvent) (i j : Nat), i < j →
        (translateRaw evs)[i]? = some .done → (translateRaw evs)[j]? = none := by
  intro h
  have h1 :=
    h [.messageStop, .contentBlockDelta "text_delta" (some "x") none] 0 1
      (by decide) rfl
  exact Option.noConfusion h1

/-- C5 amended: done is the final downstream event whenever message_stop is
the final raw event, which the provider contract guarantees; raw events
arriving after message_stop would still be processed by the loop. -/
theorem claim5_done_last (evs : List RawEvent) :
    translateRaw (evs ++ [.messageStop]) = translateRaw evs ++ [.done] := by
  simp [translateRaw, run_append, run, step]

/-- The text carried by a downstream event: its content for a text event,
empty for every other event. -/
def textOf (e : DownstreamEvent) : String :=
  match e with
  | .text c => c
  | _ => ""

/-- Concatenation of the contents of all text events, in emission order. -/
def textConcat : List DownstreamEvent → String
  | [] => ""
  | e :: es => textOf e ++ textConcat es

/-- The text fragment carried by a raw event: the text field of a
text-kind content block delta, empty for everything else. -/
def fragOf (e : RawEvent) : String :=
  match e with
  | .contentBlockDelta t txt _ => if t = "text_delta" then txt.getD "" else ""
  | _ => ""

/-- Concatenation of all text-delta fragments, in arrival order. -/
def textFragments : List RawEvent → String
  | [] => ""
  | e :: es => fragOf e ++ textFragments es

theorem textConcat_append (a b : List DownstreamEvent) :
    textConcat (a ++ b) = textConcat a ++ textConcat b := by
  induction a with
  | nil => simp [textConcat, String.empty_append]
  | cons e es ih => simp [textConcat, ih, String.append_assoc]

theorem step_textConcat (st : TState) (e : RawEvent) :
    textConcat (step st e).2 = fragOf e := by
  cases e with
  | contentBlockStart t name id =>
    simp only [step, fragOf]
    split <;> simp [textConcat, textOf, String.append_empty]
  | contentBlockDelta t txt pj =>
    simp only [step, fragOf]
    by_cases h1 : t = "text_delta" ∧ optTruthy txt
    · simp [h1, h1.1, textConcat, textOf, String.append_empty]
    · rw [if_neg h1]
      by_cases h2 : t = "input_json_delta" ∧ optTruthy pj
      · rw [if_pos h2]
        have : ¬ t = "text_delta" := by
          intro ht
          rw [h2.1] at ht
          exact absurd ht (by decide)
        simp [textConcat, this]
      · rw [if_neg h2]
        simp only [textConcat]
        split
        · rename_i ht
          have hto : ¬ optTruthy txt := fun ho => h1 ⟨ht, ho⟩
          cases txt with
          | none => rfl
          | some s =>
            have hs : s = "" := by
              by_contra hne
              exact hto (by simp [optTruthy, hne])
            simp [hs]
        · rfl
  | contentBlockStop =>
    simp only [step, fragOf]
    split <;> simp [textConcat, textOf, String.append_empty]
  | messageStop => simp [step, fragOf, textConcat, textOf, String.append_empty]
  | otherEvent t => simp [step, fragOf, textConcat]

theorem run_textConcat (evs : List RawEvent) : ∀ st : TState,
    textConcat (run st evs).2 = textFragments evs := by
  induction evs with
  | nil => intro st; rfl
  | cons e es ih =>
    intro st
    simp only [run, textFragments]
    rw [textConcat_append, step_textConcat, ih]

/-- C3: the concatenation of the contents of all text downstream events,
in emission order, equals the concatenation of all text-delta fragments in
arrival order: no fragment is lost, reordered, or duplicated. -/
theorem claim3_text_order (evs : List RawEvent) :
    textConcat (translateRaw evs) = textFragments evs :=
  run_textConcat evs initTState

theorem step_text_nonempty (st : TState) (e : RawEvent) (c : String)
    (h : DownstreamEvent.text c ∈ (step st e).2) : c ≠ "" := by
  cases e with
  | contentBlockStart t name id =>
    simp only [step] at h
    split at h <;> simp at h
  | contentBlockDelta t txt pj =>
    simp only [step] at h
    by_cases h1 : t = "text_delta" ∧ optTruthy txt
    · rw [if_pos h1] at h
      simp only [List.mem_singleton, DownstreamEvent.text.injEq] at h
      cases txt with
      | none => exact absurd h1.2 (by simp [optTruthy])
      | some s =>
        have hs : s ≠ "" := by
          have := h1.2
          simp [optTruthy] at this
          exact this
        rw [h]
        simpa using hs
    · rw [if_neg h1] at h
      split at h <;> simp at h
  | contentBlockStop =>
    simp only [step] at h
    split at h <;> simp at h
  | messageStop => simp [step] at h
  | otherEvent t => simp [step] at h

theorem run_text_nonempty (evs : List RawEvent) : ∀ (st : TState) (c : String),
    DownstreamEvent.text c ∈ (run st evs).2 → c ≠ "" := by
  induction evs with
  | nil => intro st c h; simp [run] at h
  | cons e es ih =>
    intro st c h
    simp only [run, List.mem_append] at h
    cases h with
    | inl h => exact step_text_nonempty st e c h
    | inr h => exact ih (step st e).1 c h

/-- C10: every text downstream event carries a non-empty content string; a
text-kind delta whose text field is absent or empty emits nothing, and an
input-JSON delta whose fragment is absent or empty changes nothing. -/
theorem claim10_nonempty_text :
    (∀ (evs : List RawEvent) (c : String),
      DownstreamEvent.text c ∈ translateRaw evs → c ≠ "") ∧
    (∀ (st : TState) (txt pj : Option String), optTruthy txt = false →
      step st (.contentBlockDelta "text_delta" txt pj) = (st, [])) ∧
    (∀ (st : TState) (txt pj : Option String), optTruthy pj = false →
      step st (.contentBlockDelta "input_json_delta" txt pj) = (st, [])) := by
  refine ⟨fun evs c h => run_text_nonempty evs initTState c h, ?_, ?_⟩
  · intro st txt pj h
    simp [step, h]
  · intro st txt pj h
    simp [step, h]

/-- C10 witness: the theorem applied at a concrete emitted text event and at
concrete empty-field deltas. -/
theorem claim10_witness :
    "hi" ≠ "" ∧
    step initTState (.contentBlockDelta "text_delta" (some "") none) = (initTState, []) ∧
    step initTState (.contentBlockDelta "input_json_delta" none (some "")) = (initTState, []) :=
  ⟨claim10_nonempty_text.1 [.contentBlockDelta "text_delta" (some "hi") none] "hi"
      (List.Mem.head _),
   claim10_nonempty_text.2.1 initTState (some "") none (by decide),
   claim10_nonempty_text.2.2 initTState none (some "") (by decide)⟩

/-- Whether a downstream event is an error event. -/
def isErrorB (e : DownstreamEvent) : Bool :=
  match e with
  | .error _ => true
  | _ => false

theorem step_no_error (st : TState) (e : RawEvent) :
    (step st e).2.countP isErrorB = 0 := by
  cases e with
  | contentBlockStart t name id =>
    simp only [step]
    split <;> simp [isErrorB]
  | contentBlockDelta t txt pj =>
    simp only [step]
    split
    · simp [isErrorB]
    · split <;> simp
  | contentBlockStop =>
    simp only [step]
    split <;> simp [isErrorB]
  | messageStop => simp [step, isErrorB]
  | otherEvent t => simp [step]

theorem run_no_error (evs : List RawEvent) : ∀ st : TState,
    (run st evs).2.countP isErrorB = 0 := by
  induction evs with
  | nil => intro st; rfl
  | cons e es ih =>
    intro st
    simp only [run]
    rw [List.countP_append, step_no_error, ih]

/-- C7: when the raw stream raises after the given events were delivered,
the resulting downstream sequence contains exactly one error event, it
carries the error message, and it is the last event before the stream is
closed. -/
theorem claim7_error_terminal (evs : List RawEvent) (msg : String) :
    (translateWithError evs msg).countP isErrorB = 1 ∧
    (translateWithError evs msg).getLast? = some (.error msg) := by
  constructor
  · simp only [translateWithError, List.countP_append, translateRaw]
    rw [run_no_error]
    simp [List.countP_cons, isErrorB]
  · exact List.getLast?_concat _

theorem run_json_accum (fs : List String) : ∀ st : TState,
    (run st (fs.map (fun f => .contentBlockDelta "input_json_delta" none (some f)))).1.input
      = fs.foldl (fun a f => a ++ f) st.input := by
  induction fs with
  | nil => intro st; rfl
  | cons f fs ih =>
    intro st
    simp only [List.map, run, List.foldl]
    by_cases hf : f = ""
    · subst hf
      have hstep :
          step st (.contentBlockDelta "input_json_delta" none (some "")) = (st, []) := by
        simp [step, optTruthy]
      rw [hstep, ih, String.append_empty]
    · have hstep :
          step st (.contentBlockDelta "input_json_delta" none (some f)) =
            ({st with input := st.input ++ f}, []) := by
        simp [step, optTruthy, hf]
      rw [hstep, ih]

/-- C4: at content_block_stop with an open tool state, the emitted tool
completion carries the parse of the accumulated string, where a successful
JSON parse gives the parsed value, a non-empty unparsable string is wrapped
as a raw object, and the empty string gives the empty object; the
accumulated string is the in-order concatenation of the received
input-JSON fragments, nothing is thrown and the tool call is never
discarded.  Concretely, fragments making up a well-formed object parse to
it, and malformed accumulations are raw-wrapped. -/
theorem claim4_parse_policy :
    (∀ st : TState, st.name ≠ "" →
      step st .contentBlockStop =
        (initTState, [.toolComplete st.name st.id (parseInput st.input)])) ∧
    (∀ (s : String) (v : Json), parseJson s = some v → parseInput s = v) ∧
    (∀ s : String, parseJson s = none → s ≠ "" →
      parseInput s = .obj [("raw", .str s)]) ∧
    parseInput "" = .obj [] ∧
    (∀ (st : TState) (fs : List String),
      (run st (fs.map (fun f => .contentBlockDelta "input_json_delta" none (some f)))).1.input
        = fs.foldl (fun a f => a ++ f) st.input) ∧
    parseInput ("\x7b\"a\":1" ++ "\x7d") = .obj [("a", .num 1 0)] ∧
    parseInput ("\x7b\"a\":" ++ "bad\x7d") = .obj [("raw", .str "\x7b\"a\":bad\x7d")] := by
  refine ⟨?_, ?_, ?_, rfl, fun st fs => run_json_accum fs st, rfl, rfl⟩
  · intro st h
    simp [step, h, initTState]
  · intro s v h
    simp [parseInput, h]
  · intro s h hne
    simp [parseInput, h, hne]

/-- C4 witness: the theorem applied at a concrete open tool state, a
concrete parsable string and a concrete unparsable one. -/
theorem claim4_witness :
    step ⟨"search", "1", "t1"⟩ .contentBlockStop =
      (initTState, [.toolComplete "search" "t1" (parseInput "1")]) ∧
    parseInput "1" = .num 1 0 ∧
    parseInput "x" = .obj [("raw", .str "x")] :=
  ⟨claim4_parse_policy.1 ⟨"search", "1", "t1"⟩ (by decide),
   claim4_parse_policy.2.1 "1" (.num 1 0) rfl,
   claim4_parse_policy.2.2.1 "x" rfl (by decide)⟩

/-- C8: a missing or empty messages field yields status 400 with the fixed
error body and no upstream connection; a request body that fails to parse,
or any other setup failure before streaming, yields status 500 with the
failure message as error body and no streaming response. -/
theorem claim8_validation :
    (∀ (b : ReqBody) (sf : Option String), messagesInvalid b = true →
      postSetup (.ok b) sf = ⟨400, some "Messages are required", false, false⟩) ∧
    (∀ (msg : String) (sf : Option String),
      postSetup (.error msg) sf = ⟨500, some msg, false, false⟩) ∧
    (∀ (b : ReqBody) (msg : String), messagesInvalid b = false →
      postSetup (.ok b) (some msg) = ⟨500, some msg, false, false⟩) := by
  refine ⟨?_, fun msg sf => rfl, ?_⟩
  · intro b sf h
    simp [postSetup, h]
  · intro b msg h
    simp [postSetup, h]

/-- C8 witness: the theorem applied at an empty messages list, a failed
body parse, and a later setup failure with non-empty messages. -/
theorem claim8_witness :
    postSetup (.ok ⟨some [], none⟩) none =
      ⟨400, some "Messages are required", false, false⟩ ∧
    postSetup (.error "bad json") none = ⟨500, some "bad json", false, false⟩ ∧
    postSetup (.ok ⟨some [⟨"user", "hi"⟩], none⟩) (some "auth failure") =
      ⟨500, some "auth failure", false, false⟩ :=
  ⟨claim8_validation.1 ⟨some [], none⟩ none rfl,
   claim8_validation.2.1 "bad json" none,
   claim8_validation.2.2 ⟨some [⟨"user", "hi"⟩], none⟩ "auth failure" rfl⟩

/-- C9: in the UI projection, a tool start appends a running entry whose id
defaults from the list length when the event id is empty, and a tool
completion transitions exactly the entries matched by id when the event id
is non-empty, falling back to name-plus-running matching when the id is
empty; unmatched entries are unchanged. -/
theorem claim9_ui_matching :
    (∀ (st : UIState) (n i : String),
      (applyDownstream st (.toolStart n i)).toolCalls =
        st.toolCalls ++
          [⟨n, (if i = "" then "tool-" ++ toString st.toolCalls.length else i),
            .running, none⟩]) ∧
    (∀ (st : UIState) (n i : String) (inp : Json) (k : Nat) (tc : ClientToolCall),
      st.toolCalls[k]? = some tc →
      (applyDownstream st (.toolComplete n i inp)).toolCalls[k]? =
        some (if (i ≠ "" ∧ tc.id = i) ∨ (i = "" ∧ tc.name = n ∧ tc.status = .running)
              then {tc with status := .complete, input := some inp} else tc)) := by
  constructor
  · intro st n i
    simp [applyDownstream]
  · intro st n i inp k tc h
    simp only [applyDownstream]
    rw [List.getElem?_map, h]
    simp only [Option.map_some']
    congr 1
    split_ifs <;> first | rfl | tauto

/-- C9 witness: the theorem applied at a concrete one-entry list, an
id-carrying completion matching it. -/
theorem claim9_witness :
    (applyDownstream ⟨"", [⟨"search", "t1", .running, none⟩]⟩ (.toolStart "other" "")).toolCalls =
      [⟨"search", "t1", .running, none⟩] ++ [⟨"other", "tool-1", .running, none⟩] ∧
    (applyDownstream ⟨"", [⟨"search", "t1", .running, none⟩]⟩
        (.toolComplete "search" "t1" (.obj []))).toolCalls[0]? =
      some (if ("t1" ≠ "" ∧ "t1" = "t1") ∨
              ("t1" = "" ∧ "search" = "search" ∧ CallStatus.running = .running)
            then {name := "search", id := "t1", status := .complete, input := some (.obj [])}
            else ⟨"search", "t1", .running, none⟩) :=
  ⟨claim9_ui_matching.1 ⟨"", [⟨"search", "t1", .running, none⟩]⟩ "other" "",
   claim9_ui_matching.2 ⟨"", [⟨"search", "t1", .running, none⟩]⟩ "search" "t1" (.obj []) 0
     ⟨"search", "t1", .running, none⟩ rfl⟩

/-- Whether a downstream event is a tool start carrying the given id. -/
def isStartIdB (x : String) (e : DownstreamEvent) : Bool :=
  match e with
  | .toolStart _ i => i == x
  | _ => false

/-- Whether a downstream event is a tool completion carrying the given id. -/
def isCompleteIdB (x : String) (e : DownstreamEvent) : Bool :=
  match e with
  | .toolComplete _ i _ => i == x
  | _ => false

/-- Whether a downstream event is any tool completion. -/
def isCompleteB (e : DownstreamEvent) : Bool :=
  match e with
  | .toolComplete _ _ _ => true
  | _ => false

theorem isCompleteIdB_false_of (x : String) (e : DownstreamEvent)
    (h : isCompleteB e = false) : isCompleteIdB x e = false := by
  cases e <;> simp_all [isCompleteB, isCompleteIdB]

/-- Every tool completion in the list is preceded by a tool start with the
same id, with no other tool completion of that id in between. -/
def ToolCompletePaired (out : List DownstreamEvent) : Prop :=
  ∀ (j : Nat) (x : String) (e : DownstreamEvent),
    out[j]? = some e → isCompleteIdB x e = true →
    ∃ (i : Nat) (e2 : DownstreamEvent), i < j ∧ out[i]? = some e2 ∧
      isStartIdB x e2 = true ∧
      ∀ (k : Nat) (e3 : DownstreamEvent), i < k → k < j →
        out[k]? = some e3 → isCompleteIdB x e3 = false

/-- When a tool state is open, its tool start has been emitted and no tool
completion at all was emitted after that start. -/
def OpenInv (st : TState) (out : List DownstreamEvent) : Prop :=
  st.name ≠ "" →
    ∃ i : Nat, out[i]? = some (.toolStart st.name st.id) ∧
      ∀ (k : Nat) (e : DownstreamEvent), i < k → out[k]? = some e →
        isCompleteB e = false

theorem paired_nil : ToolCompletePaired [] := by
  intro j x e hj _
  simp at hj

theorem openinv_init : OpenInv initTState [] := fun h => absurd rfl h

theorem paired_append_noncomplete (out : List DownstreamEvent)
    (ev : DownstreamEvent) (hev : isCompleteB ev = false)
    (hP : ToolCompletePaired out) : ToolCompletePaired (out ++ [ev]) := by
  intro j x e hj hc
  rcases getElem?_concat_cases hj with hin | ⟨hjl, hee⟩
  · obtain ⟨i, e2, hij, hi, hs, hbet⟩ := hP j x e hin hc
    refine ⟨i, e2, hij, getElem?_append_of_some hi, hs, ?_⟩
    intro k e3 hik hkj hk
    rcases getElem?_concat_cases hk with hk' | ⟨hkl, _⟩
    · exact hbet k e3 hik hkj hk'
    · exfalso
      have hjlen : j < out.length := lt_of_getElem?_some hin
      omega
  · exfalso
    rw [hee, isCompleteIdB_false_of x ev hev] at hc
    exact Bool.noConfusion hc

theorem openinv_append_noncomplete (st : TState) (out : List DownstreamEvent)
    (ev : DownstreamEvent) (hev : isCompleteB ev = false)
    (hI : OpenInv st out) : OpenInv st (out ++ [ev]) := by
  intro hne
  obtain ⟨i, hi, hnone⟩ := hI hne
  refine ⟨i, getElem?_append_of_some hi, ?_⟩
  intro k e hik hk
  rcases getElem?_concat_cases hk with hk' | ⟨_, hee⟩
  · exact hnone k e hik hk'
  · rw [hee]
    exact hev

theorem step_pres (st : TState) (e : RawEvent) (out : List DownstreamEvent)
    (hP : ToolCompletePaired out) (hI : OpenInv st out) :
    ToolCompletePaired (out ++ (step st e).2) ∧
      OpenInv (step st e).1 (out ++ (step st e).2) := by
  cases e with
  | contentBlockStart t name id =>
    simp only [step]
    split
    · constructor
      · exact paired_append_noncomplete out _ rfl hP
      · intro _
        refine ⟨out.length, List.getElem?_concat_length out _, ?_⟩
        intro k e hik hk
        exfalso
        have h1 := lt_of_getElem?_some hk
        simp only [List.length_append, List.length_cons, List.length_nil] at h1
        omega
    · simpa using ⟨hP, hI⟩
  | contentBlockDelta t txt pj =>
    simp only [step]
    split
    · exact ⟨paired_append_noncomplete out _ rfl hP,
        openinv_append_noncomplete st out _ rfl hI⟩
    · split
      · simpa using ⟨hP, fun hne => hI hne⟩
      · simpa using ⟨hP, hI⟩
  | contentBlockStop =>
    simp only [step]
    split
    · rename_i hne
      constructor
      · intro j x e hj hc
        rcases getElem?_concat_cases hj with hin | ⟨hjl, hee⟩
        · obtain ⟨i, e2, hij, hi, hs, hbet⟩ := hP j x e hin hc
          refine ⟨i, e2, hij, getElem?_append_of_some hi, hs, ?_⟩
          intro k e3 hik hkj hk
          rcases getElem?_concat_cases hk with hk' | ⟨hkl, _⟩
          · exact hbet k e3 hik hkj hk'
          · exfalso
            have hjlen : j < out.length := lt_of_getElem?_some hin
            omega
        · subst hee
          have hx : st.id = x := by
            simpa [isCompleteIdB, beq_iff_eq] using hc
          obtain ⟨i, hi, hnone⟩ := hI hne
          have hilen : i < out.length := lt_of_getElem?_some hi
          refine ⟨i, .toolStart st.name st.id, by omega,
            getElem?_append_of_some hi, by simp [isStartIdB, hx], ?_⟩
          intro k e3 hik hkj hk
          rcases getElem?_concat_cases hk with hk' | ⟨hkl, _⟩
          · exact isCompleteIdB_false_of x e3 (hnone k e3 hik hk')
          · exfalso
            omega
      · intro h
        exact absurd rfl h
    · simpa using ⟨hP, hI⟩
  | messageStop =>
    simp only [step]
    exact ⟨paired_append_noncomplete out _ rfl hP,
      openinv_append_noncomplete st out _ rfl hI⟩
  | otherEvent t =>
    simpa [step] using ⟨hP, hI⟩

theorem run_pres (evs : List RawEvent) : ∀ (st : TState) (out : List DownstreamEvent),
    ToolCompletePaired out → OpenInv st out →
    ToolCompletePaired (out ++ (run st evs).2) ∧
      OpenInv (run st evs).1 (out ++ (run st evs).2) := by
  induction evs with
  | nil =>
    intro st out hP hI
    simpa [run] using ⟨hP, hI⟩
  | cons e es ih =>
    intro st out hP hI
    have h1 := step_pres st e out hP hI
    have h2 := ih (step st e).1 (out ++ (step st e).2) h1.1 h1.2
    simpa [run, List.append_assoc] using h2

/-- C2: every tool completion the translator emits with a given id is
preceded by a tool start with that id such that no other tool completion
with that id lies between them; and a content_block_stop arriving with no
open tool state emits nothing and changes nothing. -/
theorem claim2_complete_pairing :
    (∀ evs : List RawEvent, ToolCompletePaired (translateRaw evs)) ∧
    (∀ st : TState, st.name = "" → step st .contentBlockStop = (st, [])) := by
  constructor
  · intro evs
    have h := run_pres evs initTState [] paired_nil openinv_init
    simpa [translateRaw] using h.1
  · intro st h
    simp [step, h]

/-- C2 witness: the theorem applied at a concrete run with one completed
tool call (index one pairs with the start at index zero) and at a concrete
closed state receiving content_block_stop. -/
theorem claim2_witness :
    (∃ (i : Nat) (e2 : DownstreamEvent), i < 1 ∧
      (translateRaw [.contentBlockStart "tool_use" (some "a") (some "x"),
        .contentBlockStop])[i]? = some e2 ∧
      isStartIdB "x" e2 = true ∧
      ∀ (k : Nat) (e3 : DownstreamEvent), i < k → k < 1 →
        (translateRaw [.contentBlockStart "tool_use" (some "a") (some "x"),
          .contentBlockStop])[k]? = some e3 → isCompleteIdB "x" e3 = false) ∧
    step ⟨"", "abc", "i1"⟩ .contentBlockStop = (⟨"", "abc", "i1"⟩, []) :=
  ⟨claim2_complete_pairing.1
      [.contentBlockStart "tool_use" (some "a") (some "x"), .contentBlockStop]
      1 "x" (.toolComplete "a" "x" (.obj [])) rfl rfl,
   claim2_complete_pairing.2 ⟨"", "abc", "i1"⟩ rfl⟩

theorem splitNl_ne_nil (cs : List Char) : splitNl cs ≠ [] := by
  induction cs with
  | nil => simp [splitNl]
  | cons c cs ih =>
    simp only [splitNl]
    split
    · simp
    · cases h : splitNl cs with
      | nil => simp
      | cons l ls => simp

theorem splitNl_break (q p2 : List Char) :
    splitNl (q ++ '\n' :: p2) = splitNl q ++ splitNl p2 := by
  induction q with
  | nil => simp [splitNl]
  | cons c q ih =>
    have ih2 : splitNl (q.append ('\n' :: p2)) = splitNl q ++ splitNl p2 := ih
    simp only [List.cons_append, splitNl]
    split
    · rw [ih2]
      simp
    · rw [ih2]
      cases hS : splitNl q with
      | nil => exact absurd hS (splitNl_ne_nil q)
      | cons s S2 => simp

theorem splitNl_concat_nl (q : List Char) :
    splitNl (q ++ ['\n']) = splitNl q ++ [[]] := by
  have h := splitNl_break q []
  simpa [splitNl] using h

theorem decodeChunk_concat_nl (q : List Char) :
    decodeChunk (q ++ ['\n']) = decodeChunk q := by
  simp [decodeChunk, splitNl_concat_nl, decodeLine, frameMark]

theorem decodeChunk_break (q p2 : List Char) :
    decodeChunk (q ++ '\n' :: p2) = decodeChunk q ++ decodeChunk p2 := by
  simp [decodeChunk, splitNl_break]

/-- C6 counterexample: the claim that splitting the frame stream at an
arbitrary byte offset into two reads gives the same decoded sequence is
false on the code: the decoder keeps no buffer across reads, so a split in
the middle of a frame silently drops that frame. -/
theorem claim6_counterexample :
    decodeChunks
        [("data: \x7b\"type\":\"done\"\x7d\n\n").data.take 10,
         ("data: \x7b\"type\":\"done\"\x7d\n\n").data.drop 10] ≠
      decodeChunks [("data: \x7b\"type\":\"done\"\x7d\n\n").data] := by
  intro h
  rw [show decodeChunks
        [("data: \x7b\"type\":\"done\"\x7d\n\n").data.take 10,
         ("data: \x7b\"type\":\"done\"\x7d\n\n").data.drop 10] = [] from rfl] at h
  rw [show decodeChunks [("data: \x7b\"type\":\"done\"\x7d\n\n").data] =
        [.obj [("type", .str "done")]] from rfl] at h
  exact List.noConfusion h

/-- C6 amended: no split ever surfaces a decode error (the decoder is total
and silently drops unparsable lines), and a split whose first read ends at
a line boundary (just after a newline, or an empty first read) yields the
same decoded sequence as a single read; a split strictly inside a frame
line instead silently drops that frame. -/
theorem claim6_split_decode (cs : List Char) (k : Nat)
    (h : (cs.take k).getLast? = some '\n' ∨ k = 0) :
    decodeChunks [cs.take k, cs.drop k] = decodeChunks [cs] := by
  cases h with
  | inr h0 =>
    subst h0
    simp [decodeChunks, decodeChunk, splitNl, decodeLine, frameMark]
  | inl hnl =>
    obtain ⟨q, hq⟩ := List.getLast?_eq_some_iff.mp hnl
    have key : decodeChunk (cs.take k) ++ decodeChunk (cs.drop k) =
        decodeChunk (cs.take k ++ cs.drop k) := by
      rw [hq, decodeChunk_concat_nl,
        show (q ++ ['\n']) ++ cs.drop k = q ++ '\n' :: cs.drop k by simp,
        decodeChunk_break]
    simp only [decodeChunks, List.flatMap_cons, List.flatMap_nil, List.append_nil]
    rw [key, List.take_append_drop]

/-- C6 witness: the amended theorem applied at a concrete two-frame stream
split exactly after the first frame's final newline. -/
theorem claim6_witness :
    ((("data: true\ndata: 1\n").data.take 11).getLast? = some '\n' ∨ 11 = 0) ∧
    decodeChunks
        [("data: true\ndata: 1\n").data.take 11,
         ("data: true\ndata: 1\n").data.drop 11] =
      decodeChunks [("data: true\ndata: 1\n").data] :=
  ⟨Or.inl rfl, claim6_split_decode ("data: true\ndata: 1\n").data 11 (Or.inl rfl)⟩
